import Mathlib

/-!
Shallow embedding of the Poisson-approximation simulator
(`simulate_poisson_approx.py` and `simulate_poisson_approx_purepy.py`).

Real-valued quantities are modelled by rationals.  The seeded pseudo-random
source is modelled by the sequence of uniform draws it yields: operations
take the draws they consume as explicit list (or indexed-stream) arguments,
in the order the scripts consume them.
-/

namespace PoissonApprox

/-- The fixed configuration block shared by both scripts:
`T`, `lam`, `n`, `trials`, `seed`. -/
structure Params where
  T : ℚ
  lam : ℚ
  n : ℕ
  trials : ℕ
  seed : ℤ

/-- Derived success probability `p = lam * T / n`. -/
def Params.p (P : Params) : ℚ := P.lam * P.T / (P.n : ℚ)

/-- The configuration hard-coded at the top of both scripts. -/
def defaultParams : Params :=
  { T := 1, lam := 7 / 2, n := 5000, trials := 20000, seed := 12345 }

/-- One trial of the pure-Python count sampler: run through the `n` Bernoulli
draws of the trial and count those below the threshold `p`
(the loop `for _ in range(n): if r() < threshold: c += 1`). -/
def countTrial (p : ℚ) (ds : List ℚ) : ℕ :=
  (ds.filter (fun b => decide (b < p))).length

/-- The pure-Python count sampler over the list of per-trial draw lists. -/
def countSample (p : ℚ) (tds : List (List ℚ)) : List ℕ :=
  tds.map (countTrial p)

/-- NumPy realization builder, step 1:
`indices = np.nonzero(np.random.rand(n) < p)[0]` — the positions of the
Bernoulli draws that fall below `p`, in increasing order. -/
def hits (p : ℚ) (bs : List ℚ) : List ℕ :=
  (bs.enum.filter (fun ib => decide (ib.2 < p))).map Prod.fst

/-- Pure-Python realization builder, step 1: the loop
`for i in range(n): if r() < p: indices.append(i)`, with the second argument
the running value of `i`. -/
def indicesPy (p : ℚ) : List ℚ → ℕ → List ℕ
  | [], _ => []
  | b :: bs, i => if b < p then i :: indicesPy p bs (i + 1) else indicesPy p bs (i + 1)

/-- Event timestamps before the sort: each hit index `i`, paired with its
jitter draw `u`, becomes `(i + u) * (T / n)`.  Both scripts use this formula
(`(indices + np.random.rand(len(indices))) * (T / n)` and
`(i + random.random()) * (T/n)`), pairing hit indices with jitter draws in
increasing index order. -/
def timesUnsorted (T : ℚ) (n : ℕ) (idx : List ℕ) (js : List ℚ) : List ℚ :=
  (idx.zip js).map (fun iu => ((iu.1 : ℚ) + iu.2) * (T / (n : ℚ)))

/-- `times.sort()`: ascending stable sort. -/
def sortTimes (ts : List ℚ) : List ℚ :=
  ts.mergeSort (fun a b => decide (a ≤ b))

/-- The NumPy script's `times`: sorted jittered timestamps when at least one
subinterval is hit (`if len(indices) > 0`), the empty list otherwise. -/
def realizationNp (p T : ℚ) (n : ℕ) (bs js : List ℚ) : List ℚ :=
  if 0 < (hits p bs).length then sortTimes (timesUnsorted T n (hits p bs) js) else []

/-- The pure-Python script's `times` (`if indices: ... else: times = []`). -/
def realizationPy (p T : ℚ) (n : ℕ) (bs js : List ℚ) : List ℚ :=
  if indicesPy p bs 0 = [] then [] else sortTimes (timesUnsorted T n (indicesPy p bs 0) js)

/-- `np.diff`: differences of adjacent elements. -/
def diffAdj : List ℚ → List ℚ
  | [] => []
  | [_] => []
  | a :: b :: rest => (b - a) :: diffAdj (b :: rest)

/-- NumPy interarrival extractor:
`np.diff(np.concatenate(([0.0], times)))`. -/
def interarrivalsNp (ts : List ℚ) : List ℚ :=
  diffAdj (0 :: ts)

/-- The comprehension `[times[i] - times[i-1] for i in range(1, len(times))]`,
carrying the previous element as an accumulator. -/
def pairDiffs (prev : ℚ) : List ℚ → List ℚ
  | [] => []
  | x :: xs => (x - prev) :: pairDiffs x xs

/-- Pure-Python interarrival extractor:
`[times[0]] + [times[i] - times[i-1] for i in range(1, len(times))]`,
and `[]` for the empty realization. -/
def interarrivalsPy : List ℚ → List ℚ
  | [] => []
  | t :: ts => t :: pairDiffs t ts

/-- Population mean `sum(xs) / len(xs)` (on the empty list this is `0 / 0 = 0`
in `ℚ`; the scripts never evaluate that case). -/
def mean (xs : List ℚ) : ℚ := xs.sum / (xs.length : ℚ)

/-- Population variance `sum((x - mean)**2 for x in xs) / len(xs)`
(also the meaning of NumPy's `var(ddof=0)`). -/
def popVar (xs : List ℚ) : ℚ :=
  (xs.map (fun x => (x - mean xs) ^ 2)).sum / (xs.length : ℚ)

/-- `mean_ia`: `None` when the single realization produced no events. -/
def meanIA (ia : List ℚ) : Option ℚ :=
  if ia = [] then none else some (mean ia)

/-- `var_ia`: `None` when the single realization produced no events. -/
def varIA (ia : List ℚ) : Option ℚ :=
  if ia = [] then none else some (popVar ia)

/-- The JSON summary dictionary `out` that each script serializes at the end
of a run, as an association list from key to rational value (integer-valued
entries are cast). -/
def summaryOut (P : Params) (counts : List ℕ) (times : List ℚ) : List (String × ℚ) :=
  [("T", P.T),
   ("lambda", P.lam),
   ("n", (P.n : ℚ)),
   ("p", P.p),
   ("trials", (P.trials : ℚ)),
   ("counts_mean", mean (counts.map (fun c => (c : ℚ)))),
   ("counts_var", popVar (counts.map (fun c => (c : ℚ)))),
   ("theor_mean", P.lam * P.T),
   ("theor_var", P.lam * P.T),
   ("realization_event_count", (times.length : ℚ))]

/-- The key the spec adds to the serialized record; the scripts only print
`1.0/lam` to the console. -/
def tIAkey : String := "theoretical_interarrival_mean"

/-- The draws a seeded stream yields at positions `start, …, start + len - 1`. -/
def streamTake (u : ℕ → ℚ) (start len : ℕ) : List ℚ :=
  (List.range len).map (fun i => u (start + i))

/-- Everything the core of a run computes. -/
structure RunOutput where
  counts : List ℕ
  realization : List ℚ
  iaStats : Option ℚ × Option ℚ
  summary : List (String × ℚ)

/-- One full run of the (pure-Python) core as a function of the parameters and
the seeded uniform stream, consuming draws in the documented order:
`trials * n` Bernoulli draws for the counts, then `n` Bernoulli draws for the
single realization, then one jitter draw per hit in increasing index order. -/
def runCore (P : Params) (u : ℕ → ℚ) : RunOutput :=
  let tds := (List.range P.trials).map (fun t => streamTake u (t * P.n) P.n)
  let counts := countSample P.p tds
  let bs := streamTake u (P.trials * P.n) P.n
  let idx := indicesPy P.p bs 0
  let js := streamTake u (P.trials * P.n + P.n) idx.length
  let times := realizationPy P.p P.T P.n bs js
  let ia := interarrivalsPy times
  { counts := counts
    realization := times
    iaStats := (meanIA ia, varIA ia)
    summary := summaryOut P counts times }

/-! ## Structural lemmas about the interarrival extractors -/

lemma pairDiffs_length (prev : ℚ) (ts : List ℚ) :
    (pairDiffs prev ts).length = ts.length := by
  induction ts generalizing prev with
  | nil => rfl
  | cons x xs ih => simp [pairDiffs, ih]

lemma interarrivalsPy_length (ts : List ℚ) :
    (interarrivalsPy ts).length = ts.length := by
  cases ts with
  | nil => rfl
  | cons t r => simp [interarrivalsPy, pairDiffs_length]

lemma interarrivalsPy_eq_nil_iff (ts : List ℚ) :
    interarrivalsPy ts = [] ↔ ts = [] := by
  cases ts <;> simp [interarrivalsPy]

lemma diffAdj_cons (prev : ℚ) (ts : List ℚ) :
    diffAdj (prev :: ts) = pairDiffs prev ts := by
  induction ts generalizing prev with
  | nil => rfl
  | cons x xs ih => simp [diffAdj, pairDiffs, ih]

lemma np_py_interarrivals_agree (ts : List ℚ) :
    interarrivalsNp ts = interarrivalsPy ts := by
  cases ts with
  | nil => rfl
  | cons t r => simp [interarrivalsNp, interarrivalsPy, diffAdj_cons, pairDiffs, sub_zero]

lemma pairDiffs_sum (prev x : ℚ) (xs : List ℚ) :
    (pairDiffs prev (x :: xs)).sum = (x :: xs).getLast (List.cons_ne_nil x xs) - prev := by
  induction xs generalizing prev x with
  | nil => simp [pairDiffs]
  | cons y ys ih =>
      have hstep : pairDiffs prev (x :: y :: ys) = (x - prev) :: pairDiffs x (y :: ys) := rfl
      rw [hstep, List.sum_cons, ih x y,
        List.getLast_cons (List.cons_ne_nil y ys)]
      ring

/-! ## Structural lemmas about the hit-index lists -/

lemma indicesPy_mem (p : ℚ) (bs : List ℚ) :
    ∀ i j, j ∈ indicesPy p bs i → i ≤ j ∧ j < i + bs.length := by
  induction bs with
  | nil => intro i j h; simp [indicesPy] at h
  | cons b bs ih =>
      intro i j h
      rw [indicesPy] at h
      split at h
      · rcases List.mem_cons.mp h with rfl | h2
        · simp only [List.length_cons]; omega
        · have := ih (i + 1) j h2
          simp only [List.length_cons]; omega
      · have := ih (i + 1) j h
        simp only [List.length_cons]; omega

lemma indicesPy_chain (p : ℚ) (bs : List ℚ) :
    ∀ i, (indicesPy p bs i).Chain' (· < ·) := by
  induction bs with
  | nil => intro i; simp [indicesPy]
  | cons b bs ih =>
      intro i
      rw [indicesPy]
      split
      · refine List.chain'_cons'.mpr ⟨?_, ih (i + 1)⟩
        intro j hj
        have hmem : j ∈ indicesPy p bs (i + 1) := List.mem_of_mem_head? hj
        have := indicesPy_mem p bs (i + 1) j hmem
        omega
      · exact ih (i + 1)

lemma indicesPy_length_le (p : ℚ) (bs : List ℚ) :
    ∀ i, (indicesPy p bs i).length ≤ bs.length := by
  induction bs with
  | nil => intro i; simp [indicesPy]
  | cons b bs ih =>
      intro i
      rw [indicesPy]
      split
      · simpa using Nat.succ_le_succ (ih (i + 1))
      · exact le_trans (ih (i + 1)) (by simp)

lemma enumFrom_hits_eq_indicesPy (p : ℚ) (bs : List ℚ) :
    ∀ i, ((List.enumFrom i bs).filter (fun ib => decide (ib.2 < p))).map Prod.fst
        = indicesPy p bs i := by
  induction bs with
  | nil => intro i; simp [indicesPy]
  | cons b bs ih =>
      intro i
      rw [indicesPy, List.enumFrom]
      by_cases hb : b < p
      · simp [List.filter_cons, hb, ih]
      · simp [List.filter_cons, hb, ih]

lemma hits_eq_indicesPy (p : ℚ) (bs : List ℚ) :
    hits p bs = indicesPy p bs 0 := by
  have henum : bs.enum = List.enumFrom 0 bs := rfl
  rw [hits, henum]
  exact enumFrom_hits_eq_indicesPy p bs 0

/-! ## Lemmas about the jittered timestamps and the sort -/

lemma timesUnsorted_chain (T : ℚ) (n : ℕ) (hc : 0 < T / (n : ℚ)) :
    ∀ (idx : List ℕ) (js : List ℚ), (∀ u ∈ js, 0 ≤ u ∧ u < 1) →
      idx.Chain' (· < ·) → (timesUnsorted T n idx js).Chain' (· < ·) := by
  intro idx
  induction idx with
  | nil => intro js _ _; simp [timesUnsorted]
  | cons i idx2 ih =>
      intro js hjs hchain
      cases js with
      | nil => simp [timesUnsorted]
      | cons u js2 =>
          rw [timesUnsorted, List.zip_cons_cons, List.map_cons]
          refine List.chain'_cons'.mpr ⟨?_, ?_⟩
          · intro y hy
            cases idx2 with
            | nil => simp [List.zip_nil_left] at hy
            | cons i2 idx3 =>
                cases js2 with
                | nil => simp [List.zip_nil_right] at hy
                | cons u2 js3 =>
                    rw [List.zip_cons_cons, List.map_cons, List.head?_cons,
                      Option.mem_some_iff] at hy
                    subst hy
                    have hi : i < i2 := (List.chain'_cons.mp hchain).1
                    have hu : 0 ≤ u ∧ u < 1 := hjs u (by simp)
                    have hu2 : 0 ≤ u2 ∧ u2 < 1 := hjs u2 (by simp)
                    have hcast : (i : ℚ) + 1 ≤ (i2 : ℚ) := by exact_mod_cast hi
                    have hlt : (i : ℚ) + u < (i2 : ℚ) + u2 := by linarith [hu.2, hu2.1]
                    exact mul_lt_mul_of_pos_right hlt hc
          · exact ih js2 (fun v hv => hjs v (by simp [hv])) hchain.tail

lemma timesUnsorted_mem (T : ℚ) (n : ℕ) (hT : 0 < T) (hn : 0 < n)
    (idx : List ℕ) (js : List ℚ) (hidx : ∀ i ∈ idx, i < n)
    (hjs : ∀ u ∈ js, 0 ≤ u ∧ u < 1) :
    ∀ t ∈ timesUnsorted T n idx js, 0 ≤ t ∧ t < T := by
  intro t ht
  rw [timesUnsorted] at ht
  rcases List.mem_map.mp ht with ⟨⟨i, u⟩, hmem, rfl⟩
  have h1 : i ∈ idx ∧ u ∈ js := List.of_mem_zip hmem
  have hi : i < n := hidx i h1.1
  have hu := hjs u h1.2
  have hnq : (0 : ℚ) < (n : ℚ) := by exact_mod_cast hn
  have hc : 0 < T / (n : ℚ) := div_pos hT hnq
  have hiq : (i : ℚ) + 1 ≤ (n : ℚ) := by exact_mod_cast hi
  constructor
  · have h0 : (0 : ℚ) ≤ (i : ℚ) + u := by
      have := Nat.cast_nonneg (α := ℚ) i
      linarith [hu.1]
    exact mul_nonneg h0 (le_of_lt hc)
  · have hlt : (i : ℚ) + u < (n : ℚ) := by linarith [hu.2]
    have hcancel : (n : ℚ) * (T / (n : ℚ)) = T := by field_simp
    calc ((i : ℚ) + u) * (T / (n : ℚ)) < (n : ℚ) * (T / (n : ℚ)) :=
          mul_lt_mul_of_pos_right hlt hc
      _ = T := hcancel

lemma timesUnsorted_length_le (T : ℚ) (n : ℕ) (idx : List ℕ) (js : List ℚ) :
    (timesUnsorted T n idx js).length ≤ idx.length := by
  rw [timesUnsorted, List.length_map, List.length_zip]
  exact min_le_left _ _

lemma sortTimes_of_chain {ts : List ℚ} (h : ts.Chain' (· < ·)) :
    sortTimes ts = ts := by
  have hp : ts.Pairwise (· < ·) := List.chain'_iff_pairwise.mp h
  have hp2 : ts.Pairwise (fun a b => (decide (a ≤ b)) = true) :=
    hp.imp (fun hab => decide_eq_true (le_of_lt hab))
  exact List.mergeSort_of_sorted hp2

lemma sortTimes_length (ts : List ℚ) : (sortTimes ts).length = ts.length := by
  simp [sortTimes]

lemma mem_sortTimes (t : ℚ) (ts : List ℚ) : t ∈ sortTimes ts ↔ t ∈ ts := by
  simp [sortTimes]

lemma realizationNp_eq_sorted (p T : ℚ) (n : ℕ) (bs js : List ℚ) :
    realizationNp p T n bs js = sortTimes (timesUnsorted T n (hits p bs) js) := by
  rcases hhits : hits p bs with _ | ⟨a, l⟩ <;>
    simp [realizationNp, hhits, timesUnsorted, sortTimes]

/-! ## Lemmas about the summary statistics -/

lemma sum_sq_dev (xs : List ℚ) (m : ℚ) :
    (xs.map (fun x => (x - m) ^ 2)).sum =
      (xs.map (fun x => x ^ 2)).sum - 2 * m * xs.sum + (xs.length : ℚ) * m ^ 2 := by
  induction xs with
  | nil => simp
  | cons x xs ih =>
      simp only [List.map_cons, List.sum_cons, List.length_cons, ih]
      push_cast
      ring

lemma length_cast_ne_zero {xs : List ℚ} (h : xs ≠ []) : (xs.length : ℚ) ≠ 0 := by
  have hpos : 0 < xs.length := List.length_pos.mpr h
  exact_mod_cast Nat.pos_iff_ne_zero.mp hpos

lemma popVar_mul_length (xs : List ℚ) (h : xs ≠ []) :
    (xs.length : ℚ) * popVar xs = (xs.map (fun x => (x - mean xs) ^ 2)).sum := by
  rw [popVar, mul_comm]
  exact div_mul_cancel₀ _ (length_cast_ne_zero h)

lemma popVar_moments (xs : List ℚ) (h : xs ≠ []) :
    popVar xs = (xs.map (fun x => x ^ 2)).sum / (xs.length : ℚ) - (mean xs) ^ 2 := by
  have hlen := length_cast_ne_zero h
  rw [popVar, sum_sq_dev, mean]
  field_simp
  ring

/-! ## Indexed description of the gap sequence -/

lemma pairDiffs_getD (prev : ℚ) (ts : List ℚ) :
    ∀ k, k < ts.length →
      (pairDiffs prev ts).getD k 0 =
        ts.getD k 0 - (if k = 0 then prev else ts.getD (k - 1) 0) := by
  induction ts generalizing prev with
  | nil => intro k hk; simp at hk
  | cons x xs ih =>
      intro k hk
      cases k with
      | zero => simp [pairDiffs]
      | succ k2 =>
          have hk2 : k2 < xs.length := by simpa using hk
          have hstep : pairDiffs prev (x :: xs) = (x - prev) :: pairDiffs x xs := rfl
          rw [hstep, List.getD_cons_succ, ih x k2 hk2]
          cases k2 with
          | zero => simp
          | succ k3 => simp [List.getD_cons_succ]

lemma interarrivalsPy_getD (ts : List ℚ) :
    ∀ k, k < ts.length →
      (interarrivalsPy ts).getD k 0 =
        (if k = 0 then ts.getD 0 0 else ts.getD k 0 - ts.getD (k - 1) 0) := by
  cases ts with
  | nil => intro k hk; simp at hk
  | cons t r =>
      intro k hk
      cases k with
      | zero => simp [interarrivalsPy]
      | succ k2 =>
          have hk2 : k2 < r.length := by simpa using hk
          have hstep : interarrivalsPy (t :: r) = t :: pairDiffs t r := rfl
          rw [hstep, List.getD_cons_succ, pairDiffs_getD t r k2 hk2]
          cases k2 with
          | zero => simp
          | succ k3 => simp [List.getD_cons_succ]

lemma interarrivalsPy_sum (ts : List ℚ) (h : ts ≠ []) :
    (interarrivalsPy ts).sum = ts.getLast h := by
  cases ts with
  | nil => cases h rfl
  | cons x xs =>
      have hstep : interarrivalsPy (x :: xs) = x :: pairDiffs x xs := rfl
      cases xs with
      | nil => simp [hstep, pairDiffs, List.getLast]
      | cons y ys =>
          rw [hstep, List.sum_cons, pairDiffs_sum x y ys,
            List.getLast_cons (List.cons_ne_nil y ys)]
          ring

/-! ## Claim theorems -/

/-- C2: for every realization, the interarrival extractor returns a sequence
of the same length, empty iff the realization is empty, with
`gap[0] = timestamp[0]` and `gap[k] = timestamp[k] - timestamp[k-1]` for
`k ≥ 1`; the NumPy and pure-Python extractors agree. -/
theorem interarrivals_gap_spec (ts : List ℚ) :
    (interarrivalsPy ts).length = ts.length ∧
    (interarrivalsPy ts = [] ↔ ts = []) ∧
    (∀ k, k < ts.length →
      (interarrivalsPy ts).getD k 0 =
        (if k = 0 then ts.getD 0 0 else ts.getD k 0 - ts.getD (k - 1) 0)) ∧
    interarrivalsNp ts = interarrivalsPy ts :=
  ⟨interarrivalsPy_length ts, interarrivalsPy_eq_nil_iff ts,
   interarrivalsPy_getD ts, np_py_interarrivals_agree ts⟩

/-- Witness for C2 at the concrete realization `[1/2, 2, 7/2]` and `k = 1`. -/
theorem interarrivals_gap_spec_witness :
    (interarrivalsPy [(1 : ℚ)/2, 2, 7/2]).getD 1 0 =
      ([(1 : ℚ)/2, 2, 7/2] : List ℚ).getD 1 0 -
        ([(1 : ℚ)/2, 2, 7/2] : List ℚ).getD 0 0 := by
  have h := (interarrivals_gap_spec [(1 : ℚ)/2, 2, 7/2]).2.2.1 1 (by decide)
  simpa using h

/-- C4: the interarrivals of a non-empty realization sum to its last
timestamp (telescoping identity), for both extractors. -/
theorem interarrivals_telescope (ts : List ℚ) (h : ts ≠ []) :
    (interarrivalsPy ts).sum = ts.getLast h ∧
    (interarrivalsNp ts).sum = ts.getLast h := by
  refine ⟨interarrivalsPy_sum ts h, ?_⟩
  rw [np_py_interarrivals_agree]
  exact interarrivalsPy_sum ts h

/-- Witness for C4 at the concrete realization `[1/2, 2, 7/2]`. -/
theorem interarrivals_telescope_witness :
    (interarrivalsPy [(1 : ℚ)/2, 2, 7/2]).sum =
        ([(1 : ℚ)/2, 2, 7/2] : List ℚ).getLast (List.cons_ne_nil _ _) ∧
    (interarrivalsNp [(1 : ℚ)/2, 2, 7/2]).sum =
        ([(1 : ℚ)/2, 2, 7/2] : List ℚ).getLast (List.cons_ne_nil _ _) :=
  interarrivals_telescope [(1 : ℚ)/2, 2, 7/2] (List.cons_ne_nil _ _)

/-- C10: fed the same Bernoulli draw list and the same jitter draw list (one
jitter per hit, in increasing index order), the vectorized and the scalar
realization builders produce the same realization, and the two interarrival
extractors are the same function. -/
theorem np_py_equiv (p T : ℚ) (n : ℕ) (bs js : List ℚ) :
    realizationNp p T n bs js = realizationPy p T n bs js ∧
    ∀ ts : List ℚ, interarrivalsNp ts = interarrivalsPy ts := by
  refine ⟨?_, np_py_interarrivals_agree⟩
  rw [realizationNp, realizationPy, hits_eq_indicesPy]
  by_cases h : indicesPy p bs 0 = []
  · simp [h]
  · have hpos : 0 < (indicesPy p bs 0).length := List.length_pos.mpr h
    simp [h, hpos]

/-- C6: the summarizer's variance is the population variance — the divisor is
the element count (`len * var` recovers the sum of squared deviations, and the
second-moment identity holds, which pins the divisor to `len` rather than
`len - 1`); on the empty interarrival list the statistics are the absent
marker `none`, on a non-empty list they are present. -/
theorem popVar_population_spec (cs ia : List ℚ) (hc : cs ≠ []) (hia : ia ≠ []) :
    (cs.length : ℚ) * popVar cs = (cs.map (fun x => (x - mean cs) ^ 2)).sum ∧
    popVar cs = (cs.map (fun x => x ^ 2)).sum / (cs.length : ℚ) - (mean cs) ^ 2 ∧
    (ia.length : ℚ) * popVar ia = (ia.map (fun x => (x - mean ia) ^ 2)).sum ∧
    popVar ia = (ia.map (fun x => x ^ 2)).sum / (ia.length : ℚ) - (mean ia) ^ 2 ∧
    meanIA [] = none ∧ varIA [] = none ∧
    meanIA ia = some (mean ia) ∧ varIA ia = some (popVar ia) :=
  ⟨popVar_mul_length cs hc, popVar_moments cs hc,
   popVar_mul_length ia hia, popVar_moments ia hia,
   rfl, rfl, by simp [meanIA, hia], by simp [varIA, hia]⟩

/-- Witness for C6 at `cs = [3, 4]`, `ia = [1/2, 1]`. -/
theorem popVar_population_spec_witness :
    (([(3 : ℚ), 4] : List ℚ).length : ℚ) * popVar [(3 : ℚ), 4] =
      (([(3 : ℚ), 4] : List ℚ).map (fun x => (x - mean [(3 : ℚ), 4]) ^ 2)).sum ∧
    popVar [(3 : ℚ), 4] =
      (([(3 : ℚ), 4] : List ℚ).map (fun x => x ^ 2)).sum /
        (([(3 : ℚ), 4] : List ℚ).length : ℚ) - (mean [(3 : ℚ), 4]) ^ 2 ∧
    (([(1 : ℚ)/2, 1] : List ℚ).length : ℚ) * popVar [(1 : ℚ)/2, 1] =
      (([(1 : ℚ)/2, 1] : List ℚ).map (fun x => (x - mean [(1 : ℚ)/2, 1]) ^ 2)).sum ∧
    popVar [(1 : ℚ)/2, 1] =
      (([(1 : ℚ)/2, 1] : List ℚ).map (fun x => x ^ 2)).sum /
        (([(1 : ℚ)/2, 1] : List ℚ).length : ℚ) - (mean [(1 : ℚ)/2, 1]) ^ 2 ∧
    meanIA [] = none ∧ varIA [] = none ∧
    meanIA [(1 : ℚ)/2, 1] = some (mean [(1 : ℚ)/2, 1]) ∧
    varIA [(1 : ℚ)/2, 1] = some (popVar [(1 : ℚ)/2, 1]) :=
  popVar_population_spec [(3 : ℚ), 4] [(1 : ℚ)/2, 1]
    (List.cons_ne_nil _ _) (List.cons_ne_nil _ _)

/-- C1 as stated fails on the code: at the concrete run with counts `[3, 4]`
and realization `[1/2]` under the default parameters (`lam * T = 7/2`), the
serialized summary has no `theoretical_interarrival_mean` key, and no
serialized value equals the theoretical interarrival mean
`1/lam = 2/7` or the empirical interarrival mean `1/2` — the interarrival
fields are printed, never serialized. -/
theorem summaryOut_missing_ia_key :
    decide (tIAkey ∈ (summaryOut defaultParams [3, 4] [1/2]).map Prod.fst) = false ∧
    ((summaryOut defaultParams [3, 4] [1/2]).map Prod.snd).elem ((2 : ℚ)/7) = false ∧
    ((summaryOut defaultParams [3, 4] [1/2]).map Prod.snd).elem ((1 : ℚ)/2) = false := by
  refine ⟨by decide, ?_, ?_⟩ <;>
    norm_num [summaryOut, defaultParams, Params.p, mean, popVar]

/-- C1 amended: the serialized summary record has exactly the keys
`T, lambda, n, p, trials, counts_mean, counts_var, theor_mean, theor_var,
realization_event_count`, carrying the echoed parameters, the empirical count
statistics, the theoretical mean and variance both equal to `lam * T`, and the
realization event count equal to the realization's length; the empirical
interarrival statistics are computed separately, absent exactly when the
realization produced zero events, and are not part of the serialized record. -/
theorem summaryOut_contents (P : Params) (cs : List ℕ) (ts ia : List ℚ) :
    (summaryOut P cs ts).map Prod.fst =
      ["T", "lambda", "n", "p", "trials", "counts_mean", "counts_var",
       "theor_mean", "theor_var", "realization_event_count"] ∧
    ("T", P.T) ∈ summaryOut P cs ts ∧
    ("lambda", P.lam) ∈ summaryOut P cs ts ∧
    ("n", (P.n : ℚ)) ∈ summaryOut P cs ts ∧
    ("p", P.p) ∈ summaryOut P cs ts ∧
    ("trials", (P.trials : ℚ)) ∈ summaryOut P cs ts ∧
    ("counts_mean", mean (cs.map (fun c => (c : ℚ)))) ∈ summaryOut P cs ts ∧
    ("counts_var", popVar (cs.map (fun c => (c : ℚ)))) ∈ summaryOut P cs ts ∧
    ("theor_mean", P.lam * P.T) ∈ summaryOut P cs ts ∧
    ("theor_var", P.lam * P.T) ∈ summaryOut P cs ts ∧
    ("realization_event_count", (ts.length : ℚ)) ∈ summaryOut P cs ts ∧
    (meanIA ia = none ↔ ia = []) ∧
    (varIA ia = none ↔ ia = []) := by
  refine ⟨rfl, ?_, ?_, ?_, ?_, ?_, ?_, ?_, ?_, ?_, ?_, ?_, ?_⟩ <;>
    first
      | simp [summaryOut]
      | (by_cases h : ia = [] <;> simp [meanIA, varIA, h])

/-- C3: for every sequence of uniform draws and every valid parameter set,
the realization is strictly increasing, every timestamp lies in `[0, T]`,
and there are at most `n` events. -/
theorem realization_invariants (p T : ℚ) (n : ℕ) (bs js : List ℚ)
    (hp0 : 0 < p) (hp1 : p ≤ 1) (hn : 1 ≤ n) (hT : 0 < T)
    (hblen : bs.length = n) (hbs : ∀ b ∈ bs, 0 ≤ b ∧ b < 1)
    (hjs : ∀ u ∈ js, 0 ≤ u ∧ u < 1) :
    (realizationNp p T n bs js).Chain' (· < ·) ∧
    (∀ t ∈ realizationNp p T n bs js, 0 ≤ t ∧ t ≤ T) ∧
    (realizationNp p T n bs js).length ≤ n := by
  have hnpos : 0 < n := hn
  have hc : 0 < T / (n : ℚ) := div_pos hT (by exact_mod_cast hnpos)
  have hidx_chain : (hits p bs).Chain' (· < ·) := by
    rw [hits_eq_indicesPy]; exact indicesPy_chain p bs 0
  have hidx_mem : ∀ i ∈ hits p bs, i < n := by
    rw [hits_eq_indicesPy]
    intro i hi
    have := indicesPy_mem p bs 0 i hi
    omega
  have htchain := timesUnsorted_chain T n hc (hits p bs) js hjs hidx_chain
  rw [realizationNp_eq_sorted, sortTimes_of_chain htchain]
  refine ⟨htchain, ?_, ?_⟩
  · intro t ht
    have := timesUnsorted_mem T n hT hnpos (hits p bs) js hidx_mem hjs t ht
    exact ⟨this.1, le_of_lt this.2⟩
  · calc (timesUnsorted T n (hits p bs) js).length
        ≤ (hits p bs).length := timesUnsorted_length_le T n (hits p bs) js
      _ ≤ bs.length := by rw [hits_eq_indicesPy]; exact indicesPy_length_le p bs 0
      _ = n := hblen

/-- Witness for C3 at `p = 1/2`, `T = 1`, `n = 2`, draws `[1/4, 3/4]` and
jitters `[1/2, 1/2]`. -/
theorem realization_invariants_witness :
    (realizationNp (1/2) 1 2 [(1 : ℚ)/4, 3/4] [(1 : ℚ)/2, 1/2]).Chain' (· < ·) ∧
    (∀ t ∈ realizationNp (1/2) 1 2 [(1 : ℚ)/4, 3/4] [(1 : ℚ)/2, 1/2], 0 ≤ t ∧ t ≤ 1) ∧
    (realizationNp (1/2) 1 2 [(1 : ℚ)/4, 3/4] [(1 : ℚ)/2, 1/2]).length ≤ 2 :=
  realization_invariants (1/2) 1 2 [(1 : ℚ)/4, 3/4] [(1 : ℚ)/2, 1/2]
    (by norm_num) (by norm_num) (by norm_num) (by norm_num) (by norm_num)
    (by norm_num) (by norm_num)

/-- C7: the jittered timestamps are already strictly increasing before the
sort step, so sorting them is the identity. -/
theorem times_presorted (p T : ℚ) (n : ℕ) (bs js : List ℚ)
    (hn : 1 ≤ n) (hT : 0 < T) (hjs : ∀ u ∈ js, 0 ≤ u ∧ u < 1) :
    (timesUnsorted T n (hits p bs) js).Chain' (· < ·) ∧
    sortTimes (timesUnsorted T n (hits p bs) js) =
      timesUnsorted T n (hits p bs) js := by
  have hc : 0 < T / (n : ℚ) := div_pos hT (by exact_mod_cast hn)
  have hchain : (hits p bs).Chain' (· < ·) := by
    rw [hits_eq_indicesPy]; exact indicesPy_chain p bs 0
  have ht := timesUnsorted_chain T n hc (hits p bs) js hjs hchain
  exact ⟨ht, sortTimes_of_chain ht⟩

/-- Witness for C7 at `p = 1/2`, `T = 1`, `n = 2`, draws `[1/4, 1/3]` and
jitters `[9/10, 1/10]` (jitter order reversed across the two hits). -/
theorem times_presorted_witness :
    (timesUnsorted 1 2 (hits (1/2) [(1 : ℚ)/4, 1/3]) [(9 : ℚ)/10, 1/10]).Chain' (· < ·) ∧
    sortTimes (timesUnsorted 1 2 (hits (1/2) [(1 : ℚ)/4, 1/3]) [(9 : ℚ)/10, 1/10]) =
      timesUnsorted 1 2 (hits (1/2) [(1 : ℚ)/4, 1/3]) [(9 : ℚ)/10, 1/10] :=
  times_presorted (1/2) 1 2 [(1 : ℚ)/4, 1/3] [(9 : ℚ)/10, 1/10]
    (by norm_num) (by norm_num) (by norm_num)

/-! ## Boundary cases p = 0 and p = 1 -/

lemma indicesPy_zero : ∀ (bs : List ℚ), (∀ b ∈ bs, 0 ≤ b) →
    ∀ i, indicesPy 0 bs i = []
  | [], _, _ => rfl
  | b :: bs, h, i => by
      rw [indicesPy, if_neg (not_lt.mpr (h b (by simp)))]
      exact indicesPy_zero bs (fun x hx => h x (by simp [hx])) (i + 1)

lemma indicesPy_one : ∀ (bs : List ℚ), (∀ b ∈ bs, b < 1) →
    ∀ i, indicesPy 1 bs i = List.range' i bs.length
  | [], _, i => by simp [indicesPy]
  | b :: bs, h, i => by
      rw [indicesPy, if_pos (h b (by simp)),
        indicesPy_one bs (fun x hx => h x (by simp [hx])) (i + 1)]
      simp [List.range'_succ]

lemma range'_getD (s n : ℕ) : ∀ k, k < n → (List.range' s n).getD k 0 = s + k := by
  induction n generalizing s with
  | zero => intro k hk; omega
  | succ m ih =>
      intro k hk
      rw [List.range'_succ]
      cases k with
      | zero => simp
      | succ k2 =>
          rw [List.getD_cons_succ, ih (s + 1) k2 (by omega)]
          omega

lemma timesUnsorted_getD (T : ℚ) (n : ℕ) :
    ∀ (idx : List ℕ) (js : List ℚ) (k : ℕ), k < idx.length → k < js.length →
      (timesUnsorted T n idx js).getD k 0 =
        ((idx.getD k 0 : ℚ) + js.getD k 0) * (T / (n : ℚ)) := by
  intro idx
  induction idx with
  | nil => intro js k h _; simp at h
  | cons i idx2 ih =>
      intro js k h1 h2
      cases js with
      | nil => simp at h2
      | cons u js2 =>
          cases k with
          | zero => simp [timesUnsorted, List.zip_cons_cons]
          | succ k2 =>
              have e : timesUnsorted T n (i :: idx2) (u :: js2)
                  = (((i : ℚ) + u) * (T / (n : ℚ))) :: timesUnsorted T n idx2 js2 := rfl
              rw [e, List.getD_cons_succ, List.getD_cons_succ, List.getD_cons_succ]
              exact ih js2 k2 (by simpa using h1) (by simpa using h2)

lemma getD_mem_of_lt {l : List ℚ} {k : ℕ} (h : k < l.length) : l.getD k 0 ∈ l := by
  rw [List.getD_eq_getElem?_getD, List.getElem?_eq_getElem h, Option.getD_some]
  exact List.getElem_mem h

/-- C5: with `p = 0` every count is zero and the realization is empty; with
`p = 1` every count equals `n` and the realization has exactly `n` events,
the `k`-th lying inside the `k`-th subinterval `[k*T/n, (k+1)*T/n)`. -/
theorem boundary_p_zero_one (T : ℚ) (n : ℕ) (tds : List (List ℚ)) (bs js : List ℚ)
    (hT : 0 < T) (hn : 1 ≤ n)
    (htds : ∀ ds ∈ tds, (∀ b ∈ ds, 0 ≤ b ∧ b < 1) ∧ ds.length = n)
    (hbs : ∀ b ∈ bs, 0 ≤ b ∧ b < 1) (hblen : bs.length = n)
    (hjs : ∀ u ∈ js, 0 ≤ u ∧ u < 1) (hjlen : js.length = n) :
    countSample 0 tds = List.replicate tds.length 0 ∧
    realizationNp 0 T n bs js = [] ∧
    countSample 1 tds = List.replicate tds.length n ∧
    (realizationNp 1 T n bs js).length = n ∧
    (∀ k, k < n →
      ((k : ℕ) : ℚ) * (T / (n : ℚ)) ≤ (realizationNp 1 T n bs js).getD k 0 ∧
      (realizationNp 1 T n bs js).getD k 0 < (((k : ℕ) : ℚ) + 1) * (T / (n : ℚ))) := by
  have hnpos : 0 < n := hn
  have hc : 0 < T / (n : ℚ) := div_pos hT (by exact_mod_cast hnpos)
  have hone : hits 1 bs = List.range' 0 n := by
    rw [hits_eq_indicesPy, indicesPy_one bs (fun b hb => (hbs b hb).2) 0, hblen]
  have hchain1 : (hits 1 bs).Chain' (· < ·) := by
    rw [hits_eq_indicesPy]; exact indicesPy_chain 1 bs 0
  have htchain := timesUnsorted_chain T n hc (hits 1 bs) js hjs hchain1
  have hreal1 : realizationNp 1 T n bs js = timesUnsorted T n (List.range' 0 n) js := by
    rw [realizationNp_eq_sorted, sortTimes_of_chain htchain, hone]
  refine ⟨?_, ?_, ?_, ?_, ?_⟩
  · rw [countSample, List.eq_replicate_iff]
    refine ⟨by simp, ?_⟩
    intro c hcmem
    rcases List.mem_map.mp hcmem with ⟨ds, hds, rfl⟩
    rw [countTrial, List.length_eq_zero, List.filter_eq_nil_iff]
    intro b hb
    simp only [decide_eq_true_eq]
    exact not_lt.mpr ((htds ds hds).1 b hb).1
  · have h0 : hits 0 bs = [] := by
      rw [hits_eq_indicesPy, indicesPy_zero bs (fun b hb => (hbs b hb).1) 0]
    simp [realizationNp, h0]
  · rw [countSample, List.eq_replicate_iff]
    refine ⟨by simp, ?_⟩
    intro c hcmem
    rcases List.mem_map.mp hcmem with ⟨ds, hds, rfl⟩
    rw [countTrial,
      List.filter_eq_self.mpr (fun b hb => decide_eq_true ((htds ds hds).1 b hb).2)]
    exact (htds ds hds).2
  · rw [hreal1, timesUnsorted, List.length_map, List.length_zip,
      List.length_range', hjlen, min_self]
  · intro k hk
    have hkr : k < (List.range' 0 n).length := by simp [List.length_range']; omega
    have hkj : k < js.length := by omega
    have hgd := timesUnsorted_getD T n (List.range' 0 n) js k hkr hkj
    rw [range'_getD 0 n k hk] at hgd
    have hu : 0 ≤ js.getD k 0 ∧ js.getD k 0 < 1 := hjs _ (getD_mem_of_lt hkj)
    rw [hreal1, hgd]
    have hcast : ((0 + k : ℕ) : ℚ) = ((k : ℕ) : ℚ) := by push_cast; ring
    rw [hcast]
    constructor
    · exact mul_le_mul_of_nonneg_right (by linarith [hu.1]) (le_of_lt hc)
    · exact mul_lt_mul_of_pos_right (by linarith [hu.2]) hc

/-- Witness for C5 at `T = 1`, `n = 2`, one counting trial with draws
`[1/2, 1/4]`, realization draws `[1/2, 1/4]`, jitters `[1/2, 1/2]`,
with the subinterval bound instantiated at `k = 1`. -/
theorem boundary_p_zero_one_witness :
    countSample 0 [[(1 : ℚ)/2, 1/4]] = List.replicate 1 0 ∧
    realizationNp 0 1 2 [(1 : ℚ)/2, 1/4] [(1 : ℚ)/2, 1/2] = [] ∧
    countSample 1 [[(1 : ℚ)/2, 1/4]] = List.replicate 1 2 ∧
    (realizationNp 1 1 2 [(1 : ℚ)/2, 1/4] [(1 : ℚ)/2, 1/2]).length = 2 ∧
    (((1 : ℕ) : ℚ) * ((1 : ℚ) / ((2 : ℕ) : ℚ)) ≤
        (realizationNp 1 1 2 [(1 : ℚ)/2, 1/4] [(1 : ℚ)/2, 1/2]).getD 1 0 ∧
      (realizationNp 1 1 2 [(1 : ℚ)/2, 1/4] [(1 : ℚ)/2, 1/2]).getD 1 0 <
        (((1 : ℕ) : ℚ) + 1) * ((1 : ℚ) / ((2 : ℕ) : ℚ))) := by
  have h := boundary_p_zero_one 1 2 [[(1 : ℚ)/2, 1/4]] [(1 : ℚ)/2, 1/4]
    [(1 : ℚ)/2, 1/2] (by norm_num) (by norm_num) (by norm_num) (by norm_num)
    (by norm_num) (by norm_num) (by norm_num)
  exact ⟨h.1, h.2.1, h.2.2.1, h.2.2.2.1, h.2.2.2.2 1 (by norm_num)⟩

/-- C8: the whole core computation is a deterministic function of the seed
and the parameters: feeding the stream produced by the same seed, and the
same parameters, to two runs yields identical counts, realization,
interarrival statistics and summary record. -/
theorem run_deterministic (stream : ℤ → ℕ → ℚ) (seed1 seed2 : ℤ) (P1 P2 : Params)
    (hseed : seed1 = seed2) (hP : P1 = P2) :
    runCore P1 (stream seed1) = runCore P2 (stream seed2) := by
  subst hseed
  subst hP
  rfl

/-- Witness for C8 with a concrete stream, seed `7` and a small parameter
set. -/
theorem run_deterministic_witness :
    runCore { T := 1, lam := 1/2, n := 2, trials := 1, seed := 7 }
        ((fun _ _ => (1 : ℚ)/2) (7 : ℤ)) =
      runCore { T := 1, lam := 1/2, n := 2, trials := 1, seed := 7 }
        ((fun _ _ => (1 : ℚ)/2) (7 : ℤ)) :=
  run_deterministic (fun _ _ => (1 : ℚ)/2) 7 7
    { T := 1, lam := 1/2, n := 2, trials := 1, seed := 7 }
    { T := 1, lam := 1/2, n := 2, trials := 1, seed := 7 } rfl rfl

end PoissonApprox
